import Mathlib

/-!
Shallow embedding of the winnow-based JSON parser in `src/main.rs` of the
`winnow-json` repository, together with proofs settling the specification
claims.

Modelling conventions:

* Input is a `List Char` (the program parses a `&str`, whose winnow stream
  tokens are `char`s).
* A parse result is `PResult α`: success carries the produced value and the
  unconsumed remainder of the input; failure carries winnow's error mode
  (`fatal = false` models `ErrMode::Backtrack`, `fatal = true` models
  `ErrMode::Cut`) and the list of context labels attached via
  `Parser::context` (innermost first).  The program is generic over the
  winnow error type `E : ParserError + AddContext`; the context-label list
  is the observable content such an error can carry.
* Backtracking is intrinsic to the functional embedding: a failing parser
  returns an error and the caller still holds the original input, which is
  exactly winnow's checkpoint/reset discipline for `ErrMode::Backtrack`.
* The two iteration combinators of the source (`repeat(0..).fold` and
  `separated(0..)`) are embedded with an explicit structural fuel argument
  initialised to `input length + 1`; winnow's corresponding loops terminate
  because each iteration consumes input (winnow even errors out when a
  `separated` separator consumes nothing, which the embedding mirrors).
  Fuel exhaustion is therefore unreachable for the parsers of this program
  (the `character` parser always consumes, see the safety theorems below).
* IEEE-754 doubles are embedded by `F64`: a sign bit together with an exact
  rational magnitude, plus infinity and NaN forms.  `parse_f64` models
  Rust's `str::parse::<f64>` except that the decimal value is kept exact
  instead of being rounded to the nearest binary64 value (and consequently
  huge exponents do not saturate to infinity).  Every numeric literal
  appearing in the specification's claims (`123e4`, `1.0`, `-0`, `1`, `2`)
  is exactly representable in binary64, so the two semantics agree on all
  values the theorems below mention.
* `float` follows winnow 0.5's `winnow::ascii::float`, i.e. the slice
  recognizer `recognize_float_or_exceptions` (sign, digits, optional
  fraction, optional exponent whose digits sit under `cut_err`, with the
  case-insensitive special forms `nan`, `inf`, `infinity`) followed by
  `str::parse` on the recognized slice.
-/

namespace WJson

/-- Model of an IEEE-754 binary64 value: sign bit plus exact magnitude,
infinity and NaN.  `finite true 0` is the parser's `-0.0`. -/
inductive F64 where
  | finite (neg : Bool) (mag : ℚ)
  | inf (neg : Bool)
  | nan
deriving DecidableEq

/-- Model of the `JsonValue` enum of the source.  `object` carries the
association-list model of `HashMap<String, JsonValue>` (see `hmInsert`). -/
inductive JsonValue where
  | null
  | boolean (b : Bool)
  | number (n : F64)
  | string (s : List Char)
  | array (xs : List JsonValue)
  | object (m : List (List Char × JsonValue))

/-- Model of `PResult`, winnow's `Result<T, ErrMode<E>>` on a complete
stream: success with the remaining input, or an error that is either
recoverable (`Backtrack`) or fatal (`Cut`) and carries context labels. -/
inductive PResult (α : Type) where
  | ok (val : α) (rest : List Char)
  | err (fatal : Bool) (ctx : List String)
deriving DecidableEq

/-- A parser over the char stream. -/
abbrev Parser (α : Type) : Type := List Char → PResult α

/-- Model of `Parser::map`. -/
def pmap (f : α → β) (p : Parser α) : Parser β := fun i =>
  match p i with
  | .ok v rest => .ok (f v) rest
  | .err b c => .err b c

/-- Model of a two-way `alt`: try `p`; on a recoverable error retry `q` on
the same input; propagate fatal errors immediately. -/
def alt2 (p q : Parser α) : Parser α := fun i =>
  match p i with
  | .ok v rest => .ok v rest
  | .err true c => .err true c
  | .err false _ => q i

/-- Model of `winnow::combinator::cut_err`: turn recoverable errors fatal. -/
def cut_errP (p : Parser α) : Parser α := fun i =>
  match p i with
  | .ok v rest => .ok v rest
  | .err _ c => .err true c

/-- Model of `Parser::context`: attach a context label to any error. -/
def withContext (lbl : String) (p : Parser α) : Parser α := fun i =>
  match p i with
  | .ok v rest => .ok v rest
  | .err b c => .err b (c ++ [lbl])

/-- Sequencing of two parsers, the model of a winnow tuple `(p, q)`. -/
def pseq (p : Parser α) (q : Parser β) : Parser (α × β) := fun i =>
  match p i with
  | .ok a rest =>
    match q rest with
    | .ok b rest2 => .ok (a, b) rest2
    | .err b c => .err b c
  | .err b c => .err b c

/-- Model of `winnow::combinator::preceded`. -/
def precededP (p : Parser α) (q : Parser β) : Parser β :=
  pmap Prod.snd (pseq p q)

/-- Model of `winnow::combinator::terminated`. -/
def terminatedP (p : Parser α) (q : Parser β) : Parser α :=
  pmap Prod.fst (pseq p q)

/-- Model of `winnow::combinator::delimited`. -/
def delimitedP (p : Parser α) (q : Parser β) (r : Parser γ) : Parser β :=
  precededP p (terminatedP q r)

/-- Model of `winnow::combinator::separated_pair`. -/
def separated_pairP (p : Parser α) (sep : Parser γ) (q : Parser β) :
    Parser (α × β) :=
  pmap (fun x => (x.1, x.2.2)) (pseq p (pseq sep q))

/-- Model of `winnow::combinator::opt`: catch recoverable errors only. -/
def optP (p : Parser α) : Parser (Option α) := fun i =>
  match p i with
  | .ok v rest => .ok (some v) rest
  | .err false _ => .ok none i
  | .err true c => .err true c

/-- Model of `Parser::verify`: fail recoverably when the check is false. -/
def verifyP (f : α → Bool) (p : Parser α) : Parser α := fun i =>
  match p i with
  | .ok v rest => if f v then .ok v rest else .err false []
  | .err b c => .err b c

/-- Model of `Parser::verify_map`: fail recoverably when `f` yields none. -/
def verify_mapP (f : α → Option β) (p : Parser α) : Parser β := fun i =>
  match p i with
  | .ok v rest =>
    match f v with
    | some w => .ok w rest
    | none => .err false []
  | .err b c => .err b c

/-- Model of `winnow::token::any`: take one token. -/
def anyP : Parser Char := fun i =>
  match i with
  | [] => .err false []
  | c :: t => .ok c t

/-- Model of a single-char literal parser such as the `'\"'` in `string`. -/
def charP (c : Char) : Parser Char := fun i =>
  match i with
  | [] => .err false []
  | c2 :: t => if c2 = c then .ok c t else .err false []

/-- Model of `winnow::token::none_of('\"')` used by `character`. -/
def none_of_quote : Parser Char := fun i =>
  match i with
  | [] => .err false []
  | c :: t => if c = '"' then .err false [] else .ok c t

/-- Model of `winnow::token::one_of` over a list of candidate chars. -/
def one_ofP (cs : List Char) : Parser Char := fun i =>
  match i with
  | [] => .err false []
  | c :: t => if cs.contains c then .ok c t else .err false []

/-- Recursive prefix test used by the literal parsers. -/
def startsWith : List Char → List Char → Bool
  | [], _ => true
  | _ :: _, [] => false
  | p :: ps, c :: cs => p = c && startsWith ps cs

/-- Model of a `&str` literal parser such as `"null"` or `"\\u"`. -/
def litP (s : List Char) : Parser (List Char) := fun i =>
  if startsWith s i then .ok s (i.drop s.length) else .err false []

/-- ASCII lower-casing, the model of `u8::to_ascii_lowercase`. -/
def asciiLower (c : Char) : Char :=
  if 65 ≤ c.toNat ∧ c.toNat ≤ 90 then Char.ofNat (c.toNat + 32) else c

/-- Caseless prefix test, the model of winnow's `Caseless` comparison. -/
def startsWithCaseless : List Char → List Char → Bool
  | [], _ => true
  | _ :: _, [] => false
  | p :: ps, c :: cs => asciiLower p = asciiLower c && startsWithCaseless ps cs

/-- Model of a `Caseless("...")` literal parser (`nan`, `inf`, `infinity`). -/
def caselessLitP (s : List Char) : Parser (List Char) := fun i =>
  if startsWithCaseless s i then .ok (i.take s.length) (i.drop s.length)
  else .err false []

/-- Model of `winnow::token::take(n)`: take exactly `n` tokens. -/
def takeP (n : Nat) : Parser (List Char) := fun i =>
  if n ≤ i.length then .ok (i.take n) (i.drop n) else .err false []

/-- Model of `Parser::recognize` (offset-based slicing of the consumed
input, as winnow computes it from the checkpoint). -/
def recognizeP (p : Parser α) : Parser (List Char) := fun i =>
  match p i with
  | .ok _ rest => .ok (i.take (i.length - rest.length)) rest
  | .err b c => .err b c

/-- ASCII digit test (`'0'..='9'`), phrased over code points. -/
def isDigit (c : Char) : Bool := 48 ≤ c.toNat && c.toNat ≤ 57

/-- Whitespace class of the source constant `WS = [' ', '\t', '\r', '\n']`. -/
def isWS (c : Char) : Bool := c = ' ' || c = '\t' || c = '\r' || c = '\n'

/-- Model of `ws` (`take_while(0.., WS)`, lines 162-167): always succeeds,
consuming the maximal whitespace prefix. -/
def ws : Parser (List Char) := fun i =>
  .ok (i.takeWhile isWS) (i.dropWhile isWS)

/-- Model of `winnow::ascii::digit1`: the maximal nonempty digit run. -/
def digit1 : Parser (List Char) := fun i =>
  let ds := i.takeWhile isDigit
  if ds.isEmpty then .err false [] else .ok ds (i.dropWhile isDigit)

/-- Optional sign, `opt(one_of(['+', '-']))` inside winnow's float lexer. -/
def optSign : Parser (Option Char) := optP (one_ofP ['+', '-'])

/-- Mantissa alternation of winnow's `recognize_float`:
`alt(((digit1, opt(('.', opt(digit1)))), ('.', digit1)))`. -/
def mantissa : Parser Unit :=
  alt2
    (pmap (fun _ => ())
      (pseq digit1 (optP (pseq (charP '.') (optP digit1)))))
    (pmap (fun _ => ()) (pseq (charP '.') digit1))

/-- Exponent of winnow's `recognize_float`:
`(one_of(['e', 'E']), opt(one_of(['+', '-'])), cut_err(digit1))`.
Note the `cut_err`: an exponent marker without digits is a fatal error. -/
def expTail : Parser Unit :=
  pmap (fun _ => ())
    (pseq (one_ofP ['e', 'E']) (pseq optSign (cut_errP digit1)))

/-- Body of winnow's `recognize_float` before `.recognize()`. -/
def float_body : Parser Unit :=
  pmap (fun _ => ()) (pseq optSign (pseq mantissa (optP expTail)))

/-- Model of winnow's `recognize_float`. -/
def take_float : Parser (List Char) := recognizeP float_body

/-- Model of winnow's `recognize_float_or_exceptions`: a standard float
slice, or the case-insensitive special forms `nan` and signed
`infinity` and `inf`. -/
def take_float_or_exceptions : Parser (List Char) :=
  alt2 take_float
    (alt2 (caselessLitP (("nan").toList))
      (alt2 (recognizeP (pseq optSign (caselessLitP (("infinity").toList))))
        (recognizeP (pseq optSign (caselessLitP (("inf").toList))))))

/-- Value of a list of decimal digit chars. -/
def digitsVal (ds : List Char) : Nat :=
  ds.foldl (fun a c => 10 * a + (c.toNat - 48)) 0

/-- Sign splitting of Rust's float-literal parser: strip one leading `+`
or `-` and report whether the value is negated. -/
def splitSign (s : List Char) : Bool × List Char :=
  match s with
  | '+' :: t => (false, t)
  | '-' :: t => (true, t)
  | t => (false, t)

/-- Exponent tail of `parse_f64`: empty input, or `e`/`E`, optional sign
and digits reaching the end of the slice. -/
def parseExpTail (neg : Bool) (mag : ℚ) (t : List Char) : Option F64 :=
  match t with
  | [] => some (.finite neg mag)
  | c :: t2 =>
    if c = 'e' ∨ c = 'E' then
      let (eneg, t3) := splitSign t2
      let ds := t3.takeWhile isDigit
      if ds.isEmpty ∨ ¬(t3.dropWhile isDigit).isEmpty then none
      else
        some (.finite neg
          (mag * (10 : ℚ) ^
            (if eneg then -(digitsVal ds : ℤ) else (digitsVal ds : ℤ))))
    else none

/-- Model of Rust's `str::parse::<f64>` (`dec2flt`), with the magnitude
kept exact instead of rounded to binary64: optional sign, then the
case-insensitive special values `inf`, `infinity`, `nan`, or decimal
digits with optional fraction and exponent spanning the whole slice. -/
def parse_f64 (s : List Char) : Option F64 :=
  let (neg, t) := splitSign s
  if startsWithCaseless (("infinity").toList) t ∧ t.length = 8 then
    some (.inf neg)
  else if startsWithCaseless (("inf").toList) t ∧ t.length = 3 then
    some (.inf neg)
  else if startsWithCaseless (("nan").toList) t ∧ t.length = 3 then
    some .nan
  else
    let ip := t.takeWhile isDigit
    let t1 := t.dropWhile isDigit
    match t1 with
    | '.' :: t2 =>
      let fds := t2.takeWhile isDigit
      let t3 := t2.dropWhile isDigit
      if ip.isEmpty ∧ fds.isEmpty then none
      else
        parseExpTail neg
          ((digitsVal ip : ℚ) + (digitsVal fds : ℚ) / (10 : ℚ) ^ fds.length)
          t3
    | _ => if ip.isEmpty then none else parseExpTail neg (digitsVal ip : ℚ) t1

/-- Model of `winnow::ascii::float` (line 36 uses it as the `number`
production): recognize a float slice, then convert it with
`str::parse::<f64>`; a slice that does not parse yields a recoverable
error (winnow's `ErrorKind::Verify`). -/
def float : Parser F64 := fun i =>
  match take_float_or_exceptions i with
  | .ok s rest =>
    match parse_f64 s with
    | some v => .ok v rest
    | none => .err false []
  | .err b c => .err b c

/-- Model of `null` (lines 43-46): the exact literal `null`. -/
def nullP : Parser (List Char) := litP (("null").toList)

/-- Model of `boolean` (lines 48-54): `true` or `false`, first match wins. -/
def boolean : Parser Bool :=
  alt2 (pmap (fun _ => true) (litP (("true").toList)))
    (pmap (fun _ => false) (litP (("false").toList)))

/-- Value of one hex digit char, case-insensitive. -/
def hexVal (c : Char) : Option Nat :=
  if 48 ≤ c.toNat ∧ c.toNat ≤ 57 then some (c.toNat - 48)
  else if 97 ≤ c.toNat ∧ c.toNat ≤ 102 then some (c.toNat - 87)
  else if 65 ≤ c.toNat ∧ c.toNat ≤ 70 then some (c.toNat - 55)
  else none

/-- Fold a list of hex digits into a value; `none` on a non-digit. -/
def hexListVal (l : List Char) : Option Nat :=
  l.foldl
    (fun acc c =>
      match acc, hexVal c with
      | some a, some d => some (16 * a + d)
      | _, _ => none)
    (some 0)

/-- Model of `u16::from_str_radix(s, 16)` on a 4-char slice: an optional
leading `+` (which Rust's unsigned radix parser accepts), then at least
one hex digit, with the value bounded by `u16::MAX` (automatic for at
most four hex digits). -/
def u16_from_hex (s : List Char) : Option Nat :=
  let t := match s with
    | '+' :: r => r
    | r => r
  if t.isEmpty then none
  else
    match hexListVal t with
    | some v => if v < 65536 then some v else none
    | none => none

/-- Model of `u16_hex` (lines 117-122): `take(4)` then
`u16::from_str_radix(_, 16)` under `verify_map`. -/
def u16_hex : Parser Nat := verify_mapP u16_from_hex (takeP 4)

/-- Model of `std::char::from_u32`: every code point except surrogates and
values above `0x10FFFF` converts. -/
def char_from_u32 (n : Nat) : Option Char :=
  if h : n < 55296 ∨ (57344 ≤ n ∧ n < 1114112) then
    some (Char.ofNatAux n (by unfold Nat.isValidChar; omega))
  else none

/-- Scalar-value stage of `unicode_escape` (lines 99-112): either a single
`\u` code unit outside the surrogate range, or a high/low surrogate pair
separated by a literal `\u` and combined via
`((high - 0xD800) << 10) + (low - 0xDC00) + 0x10000`. -/
def unicode_escape_scalar : Parser Nat :=
  alt2
    (verifyP (fun cp => !(55296 ≤ cp && cp < 57344)) u16_hex)
    (pmap
      (fun hl => (hl.1 - 55296) * 1024 + (hl.2 - 56320) + 65536)
      (verifyP
        (fun hl =>
          (55296 ≤ hl.1 && hl.1 < 56320) && (56320 ≤ hl.2 && hl.2 < 57344))
        (separated_pairP u16_hex (litP ['\\', 'u']) u16_hex)))

/-- Model of `unicode_escape` (lines 97-115): the scalar stage followed by
`verify_map(std::char::from_u32)`. -/
def unicode_escape : Parser Char := verify_mapP char_from_u32 unicode_escape_scalar

/-- Mapping of the short escapes in `character` (lines 78-88). -/
def shortEscape (c : Char) : Option Char :=
  if c = '"' ∨ c = '\\' ∨ c = '/' then some c
  else if c = 'b' then some (Char.ofNat 8)
  else if c = 'f' then some (Char.ofNat 12)
  else if c = 'n' then some (Char.ofNat 10)
  else if c = 'r' then some (Char.ofNat 13)
  else if c = 't' then some (Char.ofNat 9)
  else none

/-- Model of `character` (lines 72-95): one char that is not `"`; a
backslash introduces either a short escape or `u` plus `unicode_escape`. -/
def character : Parser Char := fun i =>
  match none_of_quote i with
  | .ok c t =>
    if c = '\\' then
      alt2 (verify_mapP shortEscape anyP) (precededP (charP 'u') unicode_escape) t
    else .ok c t
  | .err b c => .err b c

/-- Fuel-indexed model of `repeat(0.., character).fold` (lines 61-64): on a
recoverable element failure the loop stops (winnow resets to the
checkpoint before the failed attempt); fatal errors propagate.  Fuel
exhaustion stands for winnow's must-consume loop guard and is unreachable
because `character` always consumes (proved below). -/
def manyCharF : Nat → Parser (List Char)
  | 0 => fun _ => .err true []
  | fuel + 1 => fun i =>
    match character i with
    | .err false _ => .ok [] i
    | .err true c => .err true c
    | .ok c rest =>
      match manyCharF fuel rest with
      | .ok cs rest2 => .ok (c :: cs) rest2
      | .err b cx => .err b cx

/-- Model of the character fold with its fuel instantiated. -/
def manyChar : Parser (List Char) := fun i => manyCharF (i.length + 1) i

/-- Body of `string` after the opening quote: the folded characters
terminated by the closing quote. -/
def stringBody : Parser (List Char) := terminatedP manyChar (charP '"')

/-- Model of `string` (lines 56-70): an opening quote, then the body under
`cut_err`, all labelled with the `string` context. -/
def string : Parser (List Char) :=
  withContext ("string") (precededP (charP '"') (cut_errP stringBody))

/-- Lookup in the association-list model of `HashMap`. -/
def hmGet (m : List (List Char × JsonValue)) (k : List Char) : Option JsonValue :=
  match m with
  | [] => none
  | (k2, v) :: t => if k2 = k then some v else hmGet t k

/-- Model of `HashMap::insert`: overwrite the entry when the key is
present, append a fresh entry otherwise.  This captures the observable
lookup behaviour and key set of the unordered map. -/
def hmInsert (m : List (List Char × JsonValue)) (k : List Char) (v : JsonValue) :
    List (List Char × JsonValue) :=
  if m.any (fun p => p.1 = k) then
    m.map (fun p => if p.1 = k then (k, v) else p)
  else m ++ [(k, v)]

/-- Model of collecting parsed pairs into a `HashMap` in parse order, as
winnow's `Accumulate for HashMap` does one `insert` per parsed pair. -/
def hmBuild (ps : List (List Char × JsonValue)) : List (List Char × JsonValue) :=
  ps.foldl (fun m p => hmInsert m p.1 p.2) []

/-- Value of the last occurrence of a key in a pair list. -/
def lastVal : List (List Char × JsonValue) → List Char → Option JsonValue
  | [], _ => none
  | (k1, v1) :: tl, k =>
    match lastVal tl k with
    | some v => some v
    | none => if k1 = k then some v1 else none

/-- Comma separator of the aggregates: the winnow tuple `(ws, ',', ws)`. -/
def sepComma : Parser Unit :=
  pmap (fun _ => ()) (pseq ws (pseq (charP ',') ws))

/-- Colon separator of `key_value` under `cut_err`: `(ws, ':', ws)`. -/
def sepColon : Parser Unit :=
  pmap (fun _ => ()) (pseq ws (pseq (charP ':') ws))

/-- Loop stage of winnow's `separated(0.., p, sep)` after the first
element: stop (resetting to before the separator) when the separator or
the following element fails recoverably; propagate fatal errors; error
out when the separator consumes nothing (winnow's infinite-loop guard,
unreachable for `(ws, ',', ws)` which always consumes the comma).  Fuel
decreases per iteration and is initialised to `input length + 1`. -/
def separatedLoop (p : Parser α) (sep : Parser Unit) : Nat → Parser (List α)
  | 0 => fun _ => .err true []
  | fuel + 1 => fun i =>
    match sep i with
    | .err false _ => .ok [] i
    | .err true c => .err true c
    | .ok _ rest =>
      if rest.length = i.length then .err true []
      else
        match p rest with
        | .err false _ => .ok [] i
        | .err true c => .err true c
        | .ok x rest2 =>
          match separatedLoop p sep fuel rest2 with
          | .ok xs rest3 => .ok (x :: xs) rest3
          | .err b c => .err b c

/-- Model of `winnow::combinator::separated(0.., p, sep)`: an empty
sequence when the first element fails recoverably, else the first
element followed by the separator loop. -/
def separatedList (p : Parser α) (sep : Parser Unit) : Parser (List α) := fun i =>
  match p i with
  | .err false _ => .ok [] i
  | .err true c => .err true c
  | .ok x rest =>
    match separatedLoop p sep (rest.length + 1) rest with
    | .ok xs rest2 => .ok (x :: xs) rest2
    | .err b c => .err b c

/-- Model of `key_value` (lines 152-160) parameterised by the value
parser: `separated_pair(string, cut_err((ws, ':', ws)), json_value)`. -/
def key_valueP (jv : Parser JsonValue) : Parser (List Char × JsonValue) :=
  separated_pairP string (cut_errP sepColon) jv

/-- Model of `array` (lines 124-135) parameterised by the value parser:
after `('[', ws)` the comma-separated body and the `(ws, ']')` closer sit
under `cut_err`, labelled with the `array` context. -/
def arrayP (jv : Parser JsonValue) : Parser (List JsonValue) :=
  withContext ("array")
    (precededP (pseq (charP '[') ws)
      (cut_errP (terminatedP (separatedList jv sepComma) (pseq ws (charP ']')))))

/-- Model of `object` (lines 137-150) before accumulation: the parsed
key/value pairs in source order. -/
def objectRawP (jv : Parser JsonValue) :
    Parser (List (List Char × JsonValue)) :=
  withContext ("object")
    (precededP (pseq (charP '{') ws)
      (cut_errP
        (terminatedP (separatedList (key_valueP jv) sepComma)
          (pseq ws (charP '}')))))

/-- Model of `object` with winnow's incremental `HashMap` accumulation,
which equals folding `insert` over the pairs in parse order. -/
def objectP (jv : Parser JsonValue) : Parser (List (List Char × JsonValue)) :=
  pmap hmBuild (objectRawP jv)

/-- Fuel-indexed model of `json_value` (lines 30-41): the six alternatives
in source order.  One fuel unit is spent per aggregate nesting level;
since `[` or `{` is consumed before recursing, fuel `length + 1` is
always sufficient. -/
def json_valueF : Nat → Parser JsonValue
  | 0 => fun _ => .err false []
  | fuel + 1 =>
    alt2 (pmap (fun _ => JsonValue.null) nullP)
      (alt2 (pmap JsonValue.boolean boolean)
        (alt2 (pmap JsonValue.string string)
          (alt2 (pmap JsonValue.number float)
            (alt2 (pmap JsonValue.array (arrayP (json_valueF fuel)))
              (pmap JsonValue.object (objectP (json_valueF fuel)))))))

/-- Array production at a given fuel. -/
def arrayF (fuel : Nat) : Parser (List JsonValue) := arrayP (json_valueF fuel)

/-- Raw object production (pairs in source order) at a given fuel. -/
def objectRawF (fuel : Nat) : Parser (List (List Char × JsonValue)) :=
  objectRawP (json_valueF fuel)

/-- Object production at a given fuel. -/
def objectF (fuel : Nat) : Parser (List (List Char × JsonValue)) :=
  objectP (json_valueF fuel)

/-- Fuel-indexed model of `json` (lines 25-28):
`delimited(ws, json_value, ws)`. -/
def jsonF (fuel : Nat) : Parser JsonValue :=
  delimitedP ws (json_valueF fuel) ws

/-- Document parser with sufficient fuel for its input, the model of the
`parse_document` entry point applied to a complete input. -/
def json : Parser JsonValue := fun i => jsonF (i.length + 1) i

/-- Classifier of a recoverable (backtracking) parse failure. -/
def isBacktrackR : PResult α → Bool
  | .err false _ => true
  | _ => false

/-- Head-of-list test: the first char (if any) does not satisfy `p`. -/
def headNotB (p : Char → Bool) : List Char → Bool
  | [] => true
  | c :: _ => !(p c)

/-- Input that may legally follow a maximal number literal: empty, or a
char that cannot extend the literal (no digit, `.`, `e`, `E`). -/
def boundaryOk : List Char → Bool
  | [] => true
  | c :: _ => !(isDigit c) && !(c = '.') && !(c = 'e') && !(c = 'E')

/-- Fractional contribution of a number literal's fraction part (either
empty or a dot followed by digits). -/
def fracMag : List Char → ℚ
  | '.' :: ds => (digitsVal ds : ℚ) / (10 : ℚ) ^ ds.length
  | _ => 0

/-- Signed exponent of a number literal's exponent part (either empty or
an `e`/`E` marker, an optional sign and digits). -/
def expZ : List Char → ℤ
  | [] => 0
  | _ :: t =>
    let (en, t2) := splitSign t
    if en then -(digitsVal (t2.takeWhile isDigit) : ℤ)
    else (digitsVal (t2.takeWhile isDigit) : ℤ)

/-- Modelled from the spec: exponent tail of the standard JSON number
lexical form, an optional sign then at least one digit ending the
literal. -/
def jsonExpOk (t : List Char) : Bool :=
  let t2 := match t with
    | '+' :: r => r
    | '-' :: r => r
    | r => r
  !(t2.takeWhile isDigit).isEmpty && (t2.dropWhile isDigit).isEmpty

/-- Modelled from the spec: the part of a standard JSON number after the
integer and fraction parts: empty or an exponent. -/
def jsonAfterFrac (t : List Char) : Bool :=
  match t with
  | [] => true
  | c :: t1 => (c = 'e' || c = 'E') && jsonExpOk t1

/-- Modelled from the spec: the part of a standard JSON number after the
integer part: optional fraction (a dot and at least one digit), then the
optional exponent. -/
def jsonAfterInt (t : List Char) : Bool :=
  match t with
  | '.' :: t1 =>
    !(t1.takeWhile isDigit).isEmpty && jsonAfterFrac (t1.dropWhile isDigit)
  | _ => jsonAfterFrac t

/-- Modelled from the spec: the standard JSON number lexical form
(optional leading `-`, integer part `0` or a nonzero digit followed by
digits, optional fractional part, optional exponent), as the claim's
"standard JSON number lexical form" reads. -/
def isJsonNumberB (s : List Char) : Bool :=
  let t := match s with
    | '-' :: r => r
    | r => r
  match t with
  | [] => false
  | c :: t1 =>
    if c = '0' then jsonAfterInt t1
    else if isDigit c then jsonAfterInt (t1.dropWhile isDigit)
    else false

/-! Helper lemmas about lists, chars and the basic token parsers. -/

theorem takeWhile_all_app {p : Char → Bool} :
    ∀ (a r : List Char), (∀ c ∈ a, p c = true) → headNotB p r = true →
      (a ++ r).takeWhile p = a := by
  intro a
  induction a with
  | nil =>
    intro r _ hr
    cases r with
    | nil => rfl
    | cons c t =>
      simp only [headNotB, Bool.not_eq_true'] at hr
      simp [List.takeWhile, hr]
  | cons c a ih =>
    intro r ha hr
    have hc : p c = true := ha c (by simp)
    simp [List.takeWhile_cons, hc, ih r (fun x hx => ha x (by simp [hx])) hr]

theorem dropWhile_all_app {p : Char → Bool} :
    ∀ (a r : List Char), (∀ c ∈ a, p c = true) → headNotB p r = true →
      (a ++ r).dropWhile p = r := by
  intro a
  induction a with
  | nil =>
    intro r _ hr
    cases r with
    | nil => rfl
    | cons c t =>
      simp only [headNotB, Bool.not_eq_true'] at hr
      simp [List.dropWhile, hr]
  | cons c a ih =>
    intro r ha hr
    have hc : p c = true := ha c (by simp)
    simp only [List.cons_append, List.dropWhile_cons, hc, if_true]
    exact ih r (fun x hx => ha x (by simp [hx])) hr

theorem digit1_app (a r : List Char) (hne : a ≠ [])
    (ha : ∀ c ∈ a, isDigit c = true) (hr : headNotB isDigit r = true) :
    digit1 (a ++ r) = .ok a r := by
  simp only [digit1, takeWhile_all_app a r ha hr, dropWhile_all_app a r ha hr]
  simp [List.isEmpty_iff, hne]

theorem digit1_bk (i : List Char) (h : headNotB isDigit i = true) :
    digit1 i = .err false [] := by
  cases i with
  | nil => rfl
  | cons c t =>
    simp only [headNotB, Bool.not_eq_true'] at h
    simp [digit1, List.takeWhile_cons, h]

theorem digit_toNat {c : Char} (h : isDigit c = true) :
    48 ≤ c.toNat ∧ c.toNat ≤ 57 := by
  simp only [isDigit, Bool.and_eq_true, decide_eq_true_eq] at h
  exact h

theorem digit_ne {c x : Char} (h : isDigit c = true) (hx : isDigit x = false) :
    c ≠ x := by
  intro he
  rw [he, hx] at h
  exact Bool.false_ne_true h

theorem digit_asciiLower {c : Char} (h : isDigit c = true) :
    asciiLower c = c := by
  have := digit_toNat h
  unfold asciiLower
  rw [if_neg (by omega)]

theorem recognize_ok (p : Parser α) (i a r : List Char) (v : α)
    (hp : p i = .ok v r) (hi : i = a ++ r) : recognizeP p i = .ok a r := by
  subst hi
  simp only [recognizeP, hp]
  rw [List.length_append, show a.length + r.length - r.length = a.length by omega,
    List.take_left]

theorem litP_cons_bk {c : Char} (s : List Char) (i : List Char)
    (h : headNotB (fun x => x == c) i = true) :
    litP (c :: s) i = .err false [] := by
  cases i with
  | nil => rfl
  | cons d t =>
    simp only [headNotB, Bool.not_eq_true', beq_eq_false_iff_ne, ne_eq] at h
    have : (c = d) = False := by
      simp only [eq_iff_iff, iff_false]
      exact fun he => h he.symm
    simp [litP, startsWith, this]

/-! Claim theorems. -/

/-- C5: the document parser (`json`, lines 25-28) skips leading
whitespace, runs the value dispatcher exactly once, skips trailing
whitespace, and returns the value with the entire unconsumed remainder;
it fails only when the dispatcher fails, never because non-whitespace
input remains. -/
theorem C5_document_shape (fuel : Nat) (i : List Char) :
    jsonF fuel i =
      match json_valueF fuel (i.dropWhile isWS) with
      | .ok v r => .ok v (r.dropWhile isWS)
      | .err b c => .err b c := by
  simp only [jsonF, delimitedP, precededP, terminatedP, pmap, pseq, ws]
  cases h : json_valueF fuel (i.dropWhile isWS) <;> simp [h]

/-- C2: once the opening quote of a string is consumed, any failure of the
string body (`string`, lines 56-70) is fatal and carries the `string`
context label, and the value dispatcher propagates that fatal error
instead of retrying the same prefix as a different value kind. -/
theorem C2_string_commit (t : List Char) (b : Bool) (ctx : List String)
    (h : stringBody t = .err b ctx) :
    string ('"' :: t) = .err true (ctx ++ [("string")]) ∧
    ∀ fuel, json_valueF (fuel + 1) ('"' :: t) = .err true (ctx ++ [("string")]) := by
  have hq : charP '"' ('"' :: t) = .ok '"' t := by simp [charP]
  have hs : string ('"' :: t) = .err true (ctx ++ [("string")]) := by
    simp only [string, withContext, precededP, pmap, pseq, hq, cut_errP, h]
  refine ⟨hs, fun fuel => ?_⟩
  have h1 : pmap (fun _ => JsonValue.null) nullP ('"' :: t) = .err false [] := rfl
  have h2 : pmap JsonValue.boolean boolean ('"' :: t) = .err false [] := rfl
  have h3 : pmap JsonValue.string string ('"' :: t) =
      .err true (ctx ++ [("string")]) := by
    simp only [pmap, hs]
  simp only [json_valueF, alt2, h1, h2, h3]

/-- Witness for C2 at the unterminated input of the claim. -/
theorem C2_witness :
    string ['"', 'a', 'b', 'c'] = .err true [("string")] ∧
    json_valueF 1 ['"', 'a', 'b', 'c'] = .err true [("string")] :=
  ⟨(C2_string_commit ['a', 'b', 'c'] false [] rfl).1,
   (C2_string_commit ['a', 'b', 'c'] false [] rfl).2 0⟩

theorem pseq_ok_elim {p : Parser α} {q : Parser β} {i r : List Char}
    {a : α} {b : β} (h : pseq p q i = .ok (a, b) r) :
    ∃ m, p i = .ok a m ∧ q m = .ok b r := by
  unfold pseq at h
  cases hp : p i with
  | ok a2 m =>
    simp only [hp] at h
    cases hq : q m with
    | ok b2 r2 =>
      simp only [hq, PResult.ok.injEq, Prod.mk.injEq] at h
      obtain ⟨⟨ha, hb⟩, hr⟩ := h
      subst ha; subst hb; subst hr
      exact ⟨m, rfl, hq⟩
    | err bb cc =>
      rw [hq] at h
      exact PResult.noConfusion h
  | err bb cc =>
    simp only [hp] at h
    exact PResult.noConfusion h

theorem pmap_ok_elim {f : α → β} {p : Parser α} {i r : List Char} {b : β}
    (h : pmap f p i = .ok b r) : ∃ a, p i = .ok a r ∧ f a = b := by
  unfold pmap at h
  cases hp : p i with
  | ok a m =>
    simp only [hp, PResult.ok.injEq] at h
    obtain ⟨h1, h2⟩ := h
    subst h2
    exact ⟨a, rfl, h1⟩
  | err bb cc =>
    simp only [hp] at h
    exact PResult.noConfusion h

theorem verifyP_ok_elim {f : α → Bool} {p : Parser α} {i r : List Char} {a : α}
    (h : verifyP f p i = .ok a r) : p i = .ok a r ∧ f a = true := by
  unfold verifyP at h
  cases hp : p i with
  | ok a2 m =>
    simp only [hp] at h
    by_cases hf : f a2 = true
    · rw [if_pos hf] at h
      injection h with h1 h2
      exact ⟨by rw [h1, h2], by rw [← h1]; exact hf⟩
    · rw [if_neg hf] at h; exact absurd h (by simp)
  | err bb cc =>
    simp only [hp] at h
    exact PResult.noConfusion h

theorem verify_mapP_ok_elim {f : α → Option β} {p : Parser α} {i r : List Char}
    {b : β} (h : verify_mapP f p i = .ok b r) :
    ∃ a, p i = .ok a r ∧ f a = some b := by
  unfold verify_mapP at h
  cases hp : p i with
  | ok a m =>
    simp only [hp] at h
    cases hf : f a with
    | some b2 =>
      simp only [hf, PResult.ok.injEq] at h
      obtain ⟨h1, h2⟩ := h
      subst h1; subst h2
      exact ⟨a, rfl, hf⟩
    | none =>
      rw [hf] at h
      exact PResult.noConfusion h
  | err bb cc =>
    simp only [hp] at h
    exact PResult.noConfusion h

theorem charP_ok_elim {ch : Char} {i r : List Char} {v : Char}
    (h : charP ch i = .ok v r) : i = ch :: r ∧ v = ch := by
  cases i with
  | nil => exact absurd h (by simp [charP])
  | cons c t =>
    simp only [charP] at h
    by_cases hc : c = ch
    · rw [if_pos hc] at h
      injection h with h1 h2
      subst hc; subst h1; subst h2
      exact ⟨rfl, rfl⟩
    · rw [if_neg hc] at h; exact absurd h (by simp)

theorem anyP_ok_elim {i r : List Char} {v : Char} (h : anyP i = .ok v r) :
    i = v :: r := by
  cases i with
  | nil => exact absurd h (by simp [anyP])
  | cons c t =>
    simp only [anyP, PResult.ok.injEq] at h
    obtain ⟨h1, h2⟩ := h
    subst h1; subst h2
    rfl

theorem takeP_ok_elim {n : Nat} {i r : List Char} {v : List Char}
    (h : takeP n i = .ok v r) :
    v = i.take n ∧ r = i.drop n ∧ n ≤ i.length := by
  unfold takeP at h
  by_cases hn : n ≤ i.length
  · rw [if_pos hn] at h
    injection h with h1 h2
    exact ⟨h1.symm, h2.symm, hn⟩
  · rw [if_neg hn] at h; exact absurd h (by simp)

theorem litP_ok_elim {s i r v : List Char} (h : litP s i = .ok v r) :
    v = s ∧ r = i.drop s.length := by
  unfold litP at h
  by_cases hs : startsWith s i = true
  · rw [if_pos hs] at h
    injection h with h1 h2
    exact ⟨h1.symm, h2.symm⟩
  · rw [if_neg hs] at h; exact absurd h (by simp)

/-- C8: each short escape of `character` (lines 78-88) decodes to exactly
its documented single character, any non-backslash non-quote character is
appended verbatim, and the example literal decodes as the claim states. -/
theorem C8_short_escapes :
    (∀ rest : List Char,
      character ('\\' :: '"' :: rest) = .ok '"' rest ∧
      character ('\\' :: '\\' :: rest) = .ok '\\' rest ∧
      character ('\\' :: '/' :: rest) = .ok '/' rest ∧
      character ('\\' :: 'b' :: rest) = .ok (Char.ofNat 8) rest ∧
      character ('\\' :: 'f' :: rest) = .ok (Char.ofNat 12) rest ∧
      character ('\\' :: 'n' :: rest) = .ok (Char.ofNat 10) rest ∧
      character ('\\' :: 'r' :: rest) = .ok (Char.ofNat 13) rest ∧
      character ('\\' :: 't' :: rest) = .ok (Char.ofNat 9) rest) ∧
    (∀ (c : Char) (rest : List Char), ¬(c = '"') → ¬(c = '\\') →
      character (c :: rest) = .ok c rest) ∧
    string (("\"a\\nb\"").toList) = .ok ['a', Char.ofNat 10, 'b'] [] := by
  refine ⟨fun rest => ⟨rfl, rfl, rfl, rfl, rfl, rfl, rfl, rfl⟩, ?_, rfl⟩
  intro c rest hq hb
  simp [character, none_of_quote, hq, hb]

/-- Witness for C8's verbatim clause at a concrete character. -/
theorem C8_witness : character ['x', 'y'] = .ok 'x' ['y'] :=
  C8_short_escapes.2.1 'x' ['y'] (by decide) (by decide)

theorem u16_hex_app (s X : List Char) (n : Nat) (hl : s.length = 4)
    (hv : u16_from_hex s = some n) : u16_hex (s ++ X) = .ok n X := by
  have h4 : 4 ≤ (s ++ X).length := by rw [List.length_append]; omega
  have ht : (s ++ X).take 4 = s := by rw [← hl]; exact List.take_left s X
  have hd : (s ++ X).drop 4 = X := by rw [← hl]; exact List.drop_left s X
  simp only [u16_hex, verify_mapP, takeP, if_pos h4, ht, hd, hv]

theorem u16_bound {s : List Char} {n : Nat} (h : u16_from_hex s = some n) :
    n < 65536 := by
  simp only [u16_from_hex] at h
  split at h
  · exact absurd h (by simp)
  · split at h
    · split at h
      · injection h with h1
        omega
      · exact absurd h (by simp)
    · exact absurd h (by simp)

theorem char_from_u32_spec {n : Nat}
    (h : n < 55296 ∨ (57344 ≤ n ∧ n < 1114112)) :
    ∃ c : Char, char_from_u32 n = some c ∧ c.toNat = n := by
  unfold char_from_u32
  rw [dif_pos h]
  exact ⟨_, rfl, rfl⟩

theorem scalar_of_pair (s1 s2 rest : List Char) (h l : Nat)
    (h1 : s1.length = 4) (hv1 : u16_from_hex s1 = some h)
    (h2 : s2.length = 4) (hv2 : u16_from_hex s2 = some l)
    (hh1 : 55296 ≤ h) (hh2 : h < 56320) (hl1 : 56320 ≤ l) (hl2 : l < 57344) :
    unicode_escape_scalar (s1 ++ ('\\' :: 'u' :: (s2 ++ rest))) =
      .ok ((h - 55296) * 1024 + (l - 56320) + 65536) rest := by
  have hu1 : u16_hex (s1 ++ ('\\' :: 'u' :: (s2 ++ rest))) =
      .ok h ('\\' :: 'u' :: (s2 ++ rest)) := u16_hex_app _ _ _ h1 hv1
  have hlit : litP ['\\', 'u'] ('\\' :: 'u' :: (s2 ++ rest)) =
      .ok ['\\', 'u'] (s2 ++ rest) := rfl
  have hu2 : u16_hex (s2 ++ rest) = .ok l rest := u16_hex_app _ _ _ h2 hv2
  have hb1 : (!(55296 ≤ h && h < 57344 : Bool)) = false := by
    simp only [Bool.not_eq_false', Bool.and_eq_true, decide_eq_true_eq]
    omega
  have hb2 : ((55296 ≤ h && h < 56320) && (56320 ≤ l && l < 57344) : Bool)
      = true := by
    simp only [Bool.and_eq_true, decide_eq_true_eq]
    omega
  simp [unicode_escape_scalar, alt2, verifyP, separated_pairP, pmap,
    pseq, hu1, hlit, hu2, hb1, hb2]

theorem unicode_of_scalar (i rest : List Char) (nn : Nat)
    (hscal : unicode_escape_scalar i = .ok nn rest)
    (hval : nn < 55296 ∨ (57344 ≤ nn ∧ nn < 1114112)) :
    ∃ c : Char, unicode_escape i = .ok c rest ∧ c.toNat = nn := by
  obtain ⟨c, hc, htn⟩ := char_from_u32_spec hval
  exact ⟨c, by simp only [unicode_escape, verify_mapP, hscal, hc], htn⟩

theorem unicode_pair_decodes (s1 s2 rest : List Char) (h l : Nat)
    (h1 : s1.length = 4) (hv1 : u16_from_hex s1 = some h)
    (h2 : s2.length = 4) (hv2 : u16_from_hex s2 = some l)
    (hh1 : 55296 ≤ h) (hh2 : h < 56320) (hl1 : 56320 ≤ l) (hl2 : l < 57344) :
    ∃ c : Char,
      unicode_escape (s1 ++ ('\\' :: 'u' :: (s2 ++ rest))) = .ok c rest ∧
      c.toNat = (h - 55296) * 1024 + (l - 56320) + 65536 :=
  unicode_of_scalar _ rest _
    (scalar_of_pair s1 s2 rest h l h1 hv1 h2 hv2 hh1 hh2 hl1 hl2)
    (by right; omega)

theorem scalar_of_single (s rest : List Char) (n : Nat)
    (hlen : s.length = 4) (hv : u16_from_hex s = some n)
    (hn : ¬(55296 ≤ n ∧ n < 57344)) :
    unicode_escape_scalar (s ++ rest) = .ok n rest := by
  have hu : u16_hex (s ++ rest) = .ok n rest := u16_hex_app _ _ _ hlen hv
  have hb : (!(55296 ≤ n && n < 57344 : Bool)) = true := by
    simp only [Bool.not_eq_true', Bool.and_eq_false_iff, decide_eq_false_iff_not]
    omega
  simp [unicode_escape_scalar, alt2, verifyP, hu, hb]

theorem unicode_single_decodes (s rest : List Char) (n : Nat)
    (hlen : s.length = 4) (hv : u16_from_hex s = some n)
    (hn : ¬(55296 ≤ n ∧ n < 57344)) :
    ∃ c : Char, unicode_escape (s ++ rest) = .ok c rest ∧ c.toNat = n :=
  unicode_of_scalar _ rest _ (scalar_of_single s rest n hlen hv hn)
    (by have := u16_bound hv; omega)

/-- C3: a `\u` escape whose code unit lies in the high-surrogate range,
immediately followed by a `\u` escape in the low-surrogate range, decodes
to the single scalar `((high - 0xD800) << 10) + (low - 0xDC00) + 0x10000`
(`unicode_escape`, lines 97-115), and a `\u` code unit outside
`[0xD800, 0xE000)` decodes to that scalar on its own. -/
theorem C3_surrogate_pairs :
    (∀ (s1 s2 rest : List Char) (h l : Nat),
      s1.length = 4 → u16_from_hex s1 = some h →
      s2.length = 4 → u16_from_hex s2 = some l →
      55296 ≤ h → h < 56320 → 56320 ≤ l → l < 57344 →
      ∃ c : Char,
        unicode_escape (s1 ++ ('\\' :: 'u' :: (s2 ++ rest))) = .ok c rest ∧
        c.toNat = (h - 55296) * 1024 + (l - 56320) + 65536) ∧
    (∀ (s rest : List Char) (n : Nat),
      s.length = 4 → u16_from_hex s = some n →
      ¬(55296 ≤ n ∧ n < 57344) →
      ∃ c : Char, unicode_escape (s ++ rest) = .ok c rest ∧ c.toNat = n) :=
  ⟨fun s1 s2 rest h l h1 hv1 h2 hv2 hh1 hh2 hl1 hl2 =>
    unicode_pair_decodes s1 s2 rest h l h1 hv1 h2 hv2 hh1 hh2 hl1 hl2,
   fun s rest n hlen hv hn => unicode_single_decodes s rest n hlen hv hn⟩

/-- Witness for C3: the pair of the claim decodes to U+1F600, and a plain
code unit decodes alone. -/
theorem C3_witness :
    (∃ c : Char,
      unicode_escape ['D', '8', '3', 'D', '\\', 'u', 'D', 'E', '0', '0'] =
        .ok c [] ∧ c.toNat = 128512) ∧
    (∃ c : Char, unicode_escape ['0', '0', '4', '1'] = .ok c [] ∧
      c.toNat = 65) := by
  constructor
  · obtain ⟨c, hc, htn⟩ :=
      C3_surrogate_pairs.1 ['D', '8', '3', 'D'] ['D', 'E', '0', '0'] []
        55357 56832 rfl rfl rfl rfl (by omega) (by omega) (by omega) (by omega)
    exact ⟨c, hc, by omega⟩
  · obtain ⟨c, hc, htn⟩ :=
      C3_surrogate_pairs.2 ['0', '0', '4', '1'] [] 65 rfl rfl (by omega)
    exact ⟨c, hc, htn⟩

theorem u16_hex_len {i r : List Char} {n : Nat} (h : u16_hex i = .ok n r) :
    r.length + 4 ≤ i.length := by
  obtain ⟨s, hp, _⟩ := verify_mapP_ok_elim h
  obtain ⟨_, hr, hle⟩ := takeP_ok_elim hp
  subst hr
  rw [List.length_drop]
  omega

theorem scalar_len {i r : List Char} {n : Nat}
    (h : unicode_escape_scalar i = .ok n r) : r.length + 4 ≤ i.length := by
  unfold unicode_escape_scalar at h
  cases hb : verifyP (fun cp => !(55296 ≤ cp && cp < 57344)) u16_hex i with
  | ok v rest =>
    simp only [alt2, hb, PResult.ok.injEq] at h
    obtain ⟨h1, h2⟩ := h
    subst h1; subst h2
    exact u16_hex_len (verifyP_ok_elim hb).1
  | err bfl cc =>
    cases bfl with
    | true =>
      simp only [alt2, hb] at h
      exact PResult.noConfusion h
    | false =>
      simp only [alt2, hb] at h
      obtain ⟨hl, hsep, _⟩ := pmap_ok_elim h
      obtain ⟨hl2, hsep2, _⟩ := pmap_ok_elim (verifyP_ok_elim hsep).1
      obtain ⟨m1, hm1, hm2⟩ := pseq_ok_elim (show pseq u16_hex
        (pseq (litP ['\\', 'u']) u16_hex) i = .ok (hl2.1, hl2.2) r by
          rw [← hsep2])
      obtain ⟨m2, hm3, hm4⟩ := pseq_ok_elim (show pseq (litP ['\\', 'u'])
        u16_hex m1 = .ok (hl2.2.1, hl2.2.2) r by rw [← hm2])
      have l1 := u16_hex_len hm1
      have l2 := u16_hex_len hm4
      obtain ⟨_, hm2r⟩ := litP_ok_elim hm3
      have : m2.length ≤ m1.length := by
        rw [hm2r, List.length_drop]
        omega
      omega

theorem unicode_escape_len {i r : List Char} {c : Char}
    (h : unicode_escape i = .ok c r) : r.length + 4 ≤ i.length := by
  obtain ⟨n, hs, _⟩ := verify_mapP_ok_elim h
  exact scalar_len hs

/-- C10: the final `char::from_u32` conversion inside `unicode_escape`
(line 113) can never be the point of failure: every scalar produced by
the preceding surrogate verifications is a valid Unicode scalar value,
so `unicode_escape` succeeds whenever its scalar stage does. -/
theorem C10_from_u32_unreachable :
    ∀ (i : List Char) (n : Nat) (r : List Char),
      unicode_escape_scalar i = .ok n r →
      (n < 55296 ∨ (57344 ≤ n ∧ n < 1114112)) ∧
      ∃ c : Char, unicode_escape i = .ok c r ∧ c.toNat = n := by
  intro i n r h
  have hrange : n < 55296 ∨ (57344 ≤ n ∧ n < 1114112) := by
    unfold unicode_escape_scalar at h
    cases hb : verifyP (fun cp => !(55296 ≤ cp && cp < 57344)) u16_hex i with
    | ok v rest =>
      simp only [alt2, hb, PResult.ok.injEq] at h
      obtain ⟨h1, h2⟩ := h
      subst h1; subst h2
      obtain ⟨hu, hchk⟩ := verifyP_ok_elim hb
      obtain ⟨s, _, hv⟩ := verify_mapP_ok_elim hu
      have hbd := u16_bound hv
      simp only [Bool.not_eq_true', Bool.and_eq_false_iff,
        decide_eq_false_iff_not] at hchk
      omega
    | err bfl cc =>
      cases bfl with
      | true =>
        simp only [alt2, hb] at h
        exact PResult.noConfusion h
      | false =>
        simp only [alt2, hb] at h
        obtain ⟨hl, hsep, hcomb⟩ := pmap_ok_elim h
        obtain ⟨_, hchk⟩ := verifyP_ok_elim hsep
        simp only [Bool.and_eq_true, decide_eq_true_eq] at hchk
        omega
  exact ⟨hrange, unicode_of_scalar i r n h hrange⟩

/-- Witness for C10 at a concrete single code unit. -/
theorem C10_witness :
    (97 < 55296 ∨ (57344 ≤ 97 ∧ 97 < 1114112)) ∧
    ∃ c : Char, unicode_escape ['0', '0', '6', '1'] = .ok c [] ∧
      c.toNat = 97 :=
  C10_from_u32_unreachable ['0', '0', '6', '1'] 97 [] rfl

/-- C9: parsing is panic-free on malformed finite input: `character`
always consumes (so winnow's must-consume loop guard in `repeat`, the one
place the library would assert, is unreachable), and a lone surrogate
escape yields a fatal error result, never a crash. -/
theorem C9_no_panic :
    (∀ (i : List Char) (c : Char) (r : List Char),
      character i = .ok c r → r.length < i.length) ∧
    json_valueF 1 (("\"\\uD800\"").toList) = .err true [("string")] := by
  refine ⟨?_, rfl⟩
  intro i c r h
  unfold character at h
  cases i with
  | nil => exact absurd h (by simp [none_of_quote])
  | cons c0 t =>
    by_cases hq : c0 = '"'
    · simp only [none_of_quote, hq, if_pos rfl] at h
      exact PResult.noConfusion h
    · simp only [none_of_quote, if_neg hq] at h
      by_cases hbs : c0 = '\\'
      · rw [if_pos hbs] at h
        cases hb1 : verify_mapP shortEscape anyP t with
        | ok e rest =>
          simp only [alt2, hb1, PResult.ok.injEq] at h
          obtain ⟨h1, h2⟩ := h
          subst h1; subst h2
          obtain ⟨a, ha, _⟩ := verify_mapP_ok_elim hb1
          have := anyP_ok_elim ha
          subst this
          simp only [List.length_cons]
          omega
        | err bfl cc =>
          cases bfl with
          | true =>
            simp only [alt2, hb1] at h
            exact PResult.noConfusion h
          | false =>
            simp only [alt2, hb1] at h
            obtain ⟨pr, hps, _⟩ := pmap_ok_elim h
            obtain ⟨m, hu, hue⟩ := pseq_ok_elim (show pseq (charP 'u')
              unicode_escape t = .ok (pr.1, pr.2) r by rw [← hps])
            obtain ⟨ht, _⟩ := charP_ok_elim hu
            have := unicode_escape_len hue
            subst ht
            simp only [List.length_cons]
            omega
      · rw [if_neg hbs] at h
        injection h with h1 h2
        subst h2
        simp

/-- Witness for C9's consumption clause at a concrete input. -/
theorem C9_witness : ([('b')] : List Char).length < (['a', 'b'] : List Char).length :=
  C9_no_panic.1 ['a', 'b'] 'a' ['b'] rfl

theorem bool_false_of_not {b : Bool} (h : ¬(b = true)) : b = false := by
  cases b
  · rfl
  · exact absurd rfl h

theorem hmGet_map_repl (k : List Char) (v : JsonValue) :
    ∀ m : List (List Char × JsonValue),
      hmGet (m.map (fun p => if p.1 = k then (k, v) else p)) k =
        (hmGet m k).map (fun _ => v) := by
  intro m
  induction m with
  | nil => rfl
  | cons p t ih =>
    obtain ⟨k2, v2⟩ := p
    by_cases hk : k2 = k
    · subst hk
      simp only [List.map_cons]
      rw [if_pos trivial]
      simp [hmGet]
    · simp only [List.map_cons]
      rw [if_neg hk]
      simp only [hmGet]
      rw [if_neg hk, if_neg hk]
      exact ih

theorem hmGet_map_repl_ne (k k2 : List Char) (v : JsonValue) (hk : k ≠ k2) :
    ∀ m : List (List Char × JsonValue),
      hmGet (m.map (fun p => if p.1 = k then (k, v) else p)) k2 =
        hmGet m k2 := by
  intro m
  induction m with
  | nil => rfl
  | cons p t ih =>
    obtain ⟨k3, v3⟩ := p
    by_cases h3 : k3 = k
    · subst h3
      simp only [List.map_cons]
      rw [if_pos trivial]
      simp only [hmGet]
      rw [if_neg hk, if_neg hk]
      exact ih
    · simp only [List.map_cons]
      rw [if_neg h3]
      simp only [hmGet]
      by_cases h32 : k3 = k2
      · rw [if_pos h32, if_pos h32]
      · rw [if_neg h32, if_neg h32]
        exact ih

theorem any_fst_get {m : List (List Char × JsonValue)} {k : List Char}
    (h : m.any (fun p => p.1 = k) = true) : ∃ w, hmGet m k = some w := by
  induction m with
  | nil => exact absurd h (by simp)
  | cons p t ih =>
    obtain ⟨k2, v2⟩ := p
    by_cases hk : k2 = k
    · exact ⟨v2, by simp [hmGet, hk]⟩
    · simp only [List.any_cons, Bool.or_eq_true, decide_eq_true_eq] at h
      obtain ⟨w, hw⟩ := ih (h.resolve_left hk)
      exact ⟨w, by simp [hmGet, hk, hw]⟩

theorem none_fst_get {m : List (List Char × JsonValue)} {k : List Char}
    (h : m.any (fun p => p.1 = k) = false) : hmGet m k = none := by
  induction m with
  | nil => rfl
  | cons p t ih =>
    obtain ⟨k2, v2⟩ := p
    simp only [List.any_cons, Bool.or_eq_false_iff, decide_eq_false_iff_not] at h
    simp only [hmGet]
    rw [if_neg h.1]
    exact ih h.2

theorem hmGet_append (m l : List (List Char × JsonValue)) (k : List Char) :
    hmGet (m ++ l) k =
      match hmGet m k with
      | some v => some v
      | none => hmGet l k := by
  induction m with
  | nil => rfl
  | cons p t ih =>
    obtain ⟨k2, v2⟩ := p
    by_cases hk : k2 = k
    · simp [hmGet, hk]
    · simp only [List.cons_append, hmGet]
      rw [if_neg hk, if_neg hk]
      exact ih

theorem hmGet_insert_eq (m : List (List Char × JsonValue)) (k : List Char)
    (v : JsonValue) : hmGet (hmInsert m k v) k = some v := by
  unfold hmInsert
  by_cases hp : m.any (fun p => p.1 = k) = true
  · rw [if_pos hp, hmGet_map_repl]
    obtain ⟨w, hw⟩ := any_fst_get hp
    simp [hw]
  · rw [if_neg hp, hmGet_append, none_fst_get (bool_false_of_not hp)]
    simp [hmGet]

theorem hmGet_insert_ne (m : List (List Char × JsonValue)) (k k2 : List Char)
    (v : JsonValue) (hk : k ≠ k2) :
    hmGet (hmInsert m k v) k2 = hmGet m k2 := by
  unfold hmInsert
  by_cases hp : m.any (fun p => p.1 = k) = true
  · rw [if_pos hp]
    exact hmGet_map_repl_ne k k2 v hk m
  · rw [if_neg hp, hmGet_append]
    cases hg : hmGet m k2 with
    | some w => rfl
    | none => simp [hmGet, hk]

theorem hmInsert_keys (m : List (List Char × JsonValue)) (k : List Char)
    (v : JsonValue) :
    (hmInsert m k v).map Prod.fst =
      if m.any (fun p => p.1 = k) then m.map Prod.fst
      else m.map Prod.fst ++ [k] := by
  unfold hmInsert
  by_cases hp : m.any (fun p => p.1 = k) = true
  · rw [if_pos hp, if_pos hp, List.map_map]
    apply List.map_congr_left
    intro p hp2
    by_cases he : p.1 = k
    · simp [he]
    · simp [he]
  · rw [if_neg hp, if_neg hp]
    simp

theorem hmInsert_nodup (m : List (List Char × JsonValue)) (k : List Char)
    (v : JsonValue) (h : (m.map Prod.fst).Nodup) :
    ((hmInsert m k v).map Prod.fst).Nodup := by
  rw [hmInsert_keys]
  by_cases hp : m.any (fun p => p.1 = k) = true
  · rwa [if_pos hp]
  · rw [if_neg hp]
    rw [List.nodup_append]
    refine ⟨h, List.nodup_singleton k, ?_⟩
    intro x hx hxk
    simp only [List.mem_singleton] at hxk
    subst hxk
    have hp2 := bool_false_of_not hp
    rw [List.any_eq_false] at hp2
    obtain ⟨p, hpm, hpf⟩ := List.mem_map.mp hx
    exact absurd (by simpa using hpf) (by simpa using hp2 p hpm)

theorem hmGet_foldl (k : List Char) :
    ∀ (ps : List (List Char × JsonValue)) (m : List (List Char × JsonValue)),
      hmGet (ps.foldl (fun m p => hmInsert m p.1 p.2) m) k =
        match lastVal ps k with
        | some v => some v
        | none => hmGet m k := by
  intro ps
  induction ps with
  | nil => intro m; rfl
  | cons p tl ih =>
    intro m
    obtain ⟨k1, v1⟩ := p
    simp only [List.foldl_cons, ih]
    cases hl : lastVal tl k with
    | some v => simp [lastVal, hl]
    | none =>
      simp only [lastVal, hl]
      by_cases hk : k1 = k
      · subst hk
        simp [hmGet_insert_eq]
      · rw [if_neg hk, hmGet_insert_ne m k1 k v1 hk]

theorem hmBuild_nodup :
    ∀ (ps m : List (List Char × JsonValue)), (m.map Prod.fst).Nodup →
      ((ps.foldl (fun m p => hmInsert m p.1 p.2) m).map Prod.fst).Nodup := by
  intro ps
  induction ps with
  | nil => intro m hm; exact hm
  | cons p tl ih =>
    intro m hm
    simp only [List.foldl_cons]
    exact ih _ (hmInsert_nodup m p.1 p.2 hm)

/-- C4: when an object source text contains duplicate keys, the resulting
mapping (`object`, lines 137-150, accumulating one `HashMap::insert` per
parsed `key_value` pair) contains each key once and maps it to the value
of the last occurrence in the text. -/
theorem C4_duplicate_keys (fuel : Nat) (i : List Char)
    (ps : List (List Char × JsonValue)) (rest : List Char)
    (h : objectRawF fuel i = .ok ps rest) :
    objectF fuel i = .ok (hmBuild ps) rest ∧
    ((hmBuild ps).map Prod.fst).Nodup ∧
    ∀ k, hmGet (hmBuild ps) k = lastVal ps k := by
  refine ⟨?_, ?_, ?_⟩
  · have : objectRawP (json_valueF fuel) i = .ok ps rest := h
    simp only [objectF, objectP, pmap, this]
  · exact hmBuild_nodup ps [] (by simp)
  · intro k
    rw [show hmBuild ps = ps.foldl (fun m p => hmInsert m p.1 p.2) [] from rfl,
      hmGet_foldl]
    cases hl : lastVal ps k with
    | some v => rfl
    | none => rfl

/-- Witness for C4 at the duplicate-key object of the claim, written as
the char list of the text with duplicate key `a` mapped to 1 then 2. -/
theorem C4_witness :
    objectF 1
      ['{', '"', 'a', '"', ':', '1', ',', '"', 'a', '"', ':', '2', '}'] =
      .ok [(['a'], JsonValue.number (.finite false 2))] [] ∧
    hmGet [(['a'], JsonValue.number (.finite false 2))] ['a'] =
      some (JsonValue.number (.finite false 2)) := by
  have h := C4_duplicate_keys 1
    ['{', '"', 'a', '"', ':', '1', ',', '"', 'a', '"', ':', '2', '}']
    [(['a'], JsonValue.number (.finite false 1)),
     (['a'], JsonValue.number (.finite false 2))] [] rfl
  exact ⟨h.1, h.2.2 ['a']⟩

theorem ws_app (w r : List Char) (hw : ∀ c ∈ w, isWS c = true)
    (hr : headNotB isWS r = true) : ws (w ++ r) = .ok w r := by
  simp only [ws, takeWhile_all_app w r hw hr, dropWhile_all_app w r hw hr]

theorem jv_bk_closer (fuel : Nat) (t : List Char) :
    isBacktrackR (json_valueF fuel (']' :: t)) = true ∧
    isBacktrackR (json_valueF fuel ('}' :: t)) = true := by
  cases fuel with
  | zero => exact ⟨rfl, rfl⟩
  | succ f => exact ⟨rfl, rfl⟩

theorem sepList_stop {α : Type} (p : Parser α) (sep : Parser Unit)
    (i : List Char) (h : isBacktrackR (p i) = true) :
    separatedList p sep i = .ok [] i := by
  cases hres : p i with
  | ok v r =>
    rw [hres] at h
    exact absurd h (by simp [isBacktrackR])
  | err b c =>
    cases b with
    | false => simp only [separatedList, hres]
    | true =>
      rw [hres] at h
      exact absurd h (by simp [isBacktrackR])

theorem empty_array_ok (fuel : Nat) (w rest : List Char)
    (hw : ∀ c ∈ w, isWS c = true) :
    arrayF fuel ('[' :: (w ++ (']' :: rest))) = .ok [] rest := by
  have hws : ws (w ++ (']' :: rest)) = .ok w (']' :: rest) :=
    ws_app _ _ hw rfl
  have hsep : separatedList (json_valueF fuel) sepComma (']' :: rest) =
      .ok [] (']' :: rest) :=
    sepList_stop _ _ _ (jv_bk_closer fuel rest).1
  have hopen : pseq (charP '[') ws ('[' :: (w ++ (']' :: rest))) =
      .ok ('[', w) (']' :: rest) := by
    simp [pseq, charP, hws]
  have hterm : terminatedP (separatedList (json_valueF fuel) sepComma)
      (pseq ws (charP ']')) (']' :: rest) = .ok [] rest := by
    simp only [terminatedP, pmap, pseq, hsep]
    rfl
  simp [arrayF, arrayP, withContext, precededP, pmap, pseq, charP,
    cut_errP, hws, hterm]

theorem empty_object_ok (fuel : Nat) (w rest : List Char)
    (hw : ∀ c ∈ w, isWS c = true) :
    objectF fuel ('{' :: (w ++ ('}' :: rest))) = .ok [] rest := by
  have hws : ws (w ++ ('}' :: rest)) = .ok w ('}' :: rest) :=
    ws_app _ _ hw rfl
  have hkv : key_valueP (json_valueF fuel) ('}' :: rest) =
      .err false [("string")] := rfl
  have hsep : separatedList (key_valueP (json_valueF fuel)) sepComma
      ('}' :: rest) = .ok [] ('}' :: rest) :=
    sepList_stop _ _ _ (by rw [hkv]; rfl)
  have hterm : terminatedP (separatedList (key_valueP (json_valueF fuel))
      sepComma) (pseq ws (charP '}')) ('}' :: rest) = .ok [] rest := by
    simp only [terminatedP, pmap, pseq, hsep]
    rfl
  have hopen : pseq (charP '{') ws ('{' :: (w ++ ('}' :: rest))) =
      .ok ('{', w) ('}' :: rest) := by
    simp [pseq, charP, hws]
  simp [objectF, objectP, objectRawP, withContext, precededP, pmap, pseq,
    charP, cut_errP, hws, hterm]
  rfl

/-- C7: arrays accept a bracket, zero or more comma-separated values and a
closing bracket with optional whitespace everywhere (`array`, lines
124-135, `object`, lines 137-150); the empty forms with any interior
whitespace yield an empty sequence or mapping, a trailing comma is
rejected (fatally, tagged with the array context), and a populated array
parses element-wise. -/
theorem C7_aggregate_grammar :
    (∀ (fuel : Nat) (w rest : List Char), (∀ c ∈ w, isWS c = true) →
      arrayF fuel ('[' :: (w ++ (']' :: rest))) = .ok [] rest ∧
      objectF fuel ('{' :: (w ++ ('}' :: rest))) = .ok [] rest) ∧
    arrayF 1 (("[1,]").toList) = .err true [("array")] ∧
    arrayF 1 (("[ false , 1 , \"two\" ]").toList) =
      .ok [.boolean false, .number (.finite false 1),
        .string (("two").toList)] [] :=
  ⟨fun fuel w rest hw =>
    ⟨empty_array_ok fuel w rest hw, empty_object_ok fuel w rest hw⟩,
   rfl, rfl⟩

/-- Witness for C7 at the whitespace-padded empty aggregates. -/
theorem C7_witness :
    arrayF 1 ['[', ' ', ']'] = .ok [] [] ∧
    objectF 1 ['{', ' ', '}'] = .ok [] [] :=
  C7_aggregate_grammar.1 1 [' '] [] (by decide)

theorem bk_elim {r : PResult α} (h : isBacktrackR r = true) :
    ∃ c, r = .err false c := by
  cases r with
  | ok v rest => exact absurd h (by simp [isBacktrackR])
  | err b c =>
    cases b with
    | false => exact ⟨c, rfl⟩
    | true => exact absurd h (by simp [isBacktrackR])

/-- C6: when each of the six value productions fails recoverably on an
input, the dispatcher (`json_value`, lines 30-41) tries them all on that
same input (the functional embedding leaves the cursor unadvanced by
construction) and itself fails recoverably.  Amended from the claim: the
number production is not always recoverable before the listed commit
chars — see the counterexample for its exponent commit point. -/
theorem C6_dispatcher_backtracks (fuel : Nat) (i : List Char)
    (h1 : isBacktrackR (nullP i) = true)
    (h2 : isBacktrackR (boolean i) = true)
    (h3 : isBacktrackR (string i) = true)
    (h4 : isBacktrackR (float i) = true)
    (h5 : isBacktrackR (arrayF fuel i) = true)
    (h6 : isBacktrackR (objectF fuel i) = true) :
    isBacktrackR (json_valueF (fuel + 1) i) = true := by
  obtain ⟨c1, e1⟩ := bk_elim h1
  obtain ⟨c2, e2⟩ := bk_elim h2
  obtain ⟨c3, e3⟩ := bk_elim h3
  obtain ⟨c4, e4⟩ := bk_elim h4
  obtain ⟨c5, e5⟩ := bk_elim h5
  obtain ⟨c6, e6⟩ := bk_elim h6
  have m1 : pmap (fun _ => JsonValue.null) nullP i = .err false c1 := by
    simp [pmap, e1]
  have m2 : pmap JsonValue.boolean boolean i = .err false c2 := by
    simp [pmap, e2]
  have m3 : pmap JsonValue.string string i = .err false c3 := by
    simp [pmap, e3]
  have m4 : pmap JsonValue.number float i = .err false c4 := by
    simp [pmap, e4]
  have m5 : pmap JsonValue.array (arrayP (json_valueF fuel)) i =
      .err false c5 := by
    have e5b : arrayP (json_valueF fuel) i = .err false c5 := e5
    simp [pmap, e5b]
  have m6 : pmap JsonValue.object (objectP (json_valueF fuel)) i =
      .err false c6 := by
    have e6b : objectP (json_valueF fuel) i = .err false c6 := e6
    simp [pmap, e6b]
  simp only [json_valueF, alt2, m1, m2, m3, m4, m5, m6]
  rfl

/-- Counterexample for C6: on the input `1e` the number production
consumes none of `\"`, `[`, `{`, `:`, `,` and yet fails fatally (winnow's
`cut_err` around the exponent digits of `recognize_float`), so the
dispatcher does not fail recoverably at that position. -/
theorem C6_counterexample :
    float (("1e").toList) = .err true [] ∧
    json_valueF 1 (("1e").toList) = .err true [] :=
  ⟨rfl, rfl⟩

/-- Witness for C6 at an input rejected by all six productions. -/
theorem C6_witness : isBacktrackR (json_valueF 1 ['x']) = true :=
  C6_dispatcher_backtracks 0 ['x'] rfl rfl rfl rfl rfl rfl

theorem one_ofP_cons_bk {cs : List Char} {d : Char} (t : List Char)
    (h : cs.contains d = false) : one_ofP cs (d :: t) = .err false [] := by
  simp only [one_ofP, h]
  simp

theorem charP_cons_bk {ch d : Char} (t : List Char) (h : ¬(d = ch)) :
    charP ch (d :: t) = .err false [] := by
  simp [charP, h]

theorem boundary_headNotDigit {r : List Char} (h : boundaryOk r = true) :
    headNotB isDigit r = true := by
  cases r with
  | nil => rfl
  | cons c t =>
    simp only [boundaryOk, Bool.and_eq_true] at h
    simp only [headNotB]
    exact h.1.1.1

theorem boundary_dot_bk {r : List Char} (h : boundaryOk r = true) :
    charP '.' r = .err false [] := by
  cases r with
  | nil => rfl
  | cons c t =>
    simp only [boundaryOk, Bool.and_eq_true, Bool.not_eq_true',
      decide_eq_false_iff_not] at h
    exact charP_cons_bk t h.1.1.2

theorem boundary_eE_bk {r : List Char} (h : boundaryOk r = true) :
    one_ofP ['e', 'E'] r = .err false [] := by
  cases r with
  | nil => rfl
  | cons c t =>
    simp only [boundaryOk, Bool.and_eq_true, Bool.not_eq_true',
      decide_eq_false_iff_not] at h
    apply one_ofP_cons_bk
    simp [List.contains_cons, h.1.2, h.2]

theorem digit_sign_bk {d : Char} (t : List Char) (hd : isDigit d = true) :
    one_ofP ['+', '-'] (d :: t) = .err false [] := by
  have p1 : ¬(d = '+') := digit_ne hd (by decide)
  have p2 : ¬(d = '-') := digit_ne hd (by decide)
  apply one_ofP_cons_bk
  simp [List.contains_cons, p1, p2]

theorem optSign_app (neg : Bool) {d : Char} (Z : List Char)
    (hd : isDigit d = true) :
    optP (one_ofP ['+', '-']) ((if neg then ['-'] else []) ++ (d :: Z)) =
      .ok (if neg then some '-' else none) (d :: Z) := by
  cases neg with
  | true => rfl
  | false =>
    have hb := digit_sign_bk Z hd
    simp [optP, hb]

theorem mantissa_app (ip fp Y : List Char) (hip1 : ip ≠ [])
    (hip2 : ∀ c ∈ ip, isDigit c = true)
    (hfp : fp = [] ∨ ∃ ds, ds ≠ [] ∧ (∀ c ∈ ds, isDigit c = true) ∧
      fp = '.' :: ds)
    (hY1 : headNotB isDigit Y = true)
    (hY2 : charP '.' Y = .err false []) :
    mantissa (ip ++ (fp ++ Y)) = .ok () Y := by
  rcases hfp with hfp | ⟨ds, hds1, hds2, hfp⟩
  · subst hfp
    simp only [List.nil_append]
    have hd1 : digit1 (ip ++ Y) = .ok ip Y := digit1_app ip Y hip1 hip2 hY1
    simp [mantissa, alt2, pmap, pseq, optP, hd1, hY2]
  · subst hfp
    simp only [List.cons_append]
    have hd1 : digit1 (ip ++ ('.' :: (ds ++ Y))) = .ok ip ('.' :: (ds ++ Y)) :=
      digit1_app ip ('.' :: (ds ++ Y)) hip1 hip2 rfl
    have hdot : charP '.' ('.' :: (ds ++ Y)) = .ok '.' (ds ++ Y) := by
      simp [charP]
    have hd2 : digit1 (ds ++ Y) = .ok ds Y := digit1_app ds Y hds1 hds2 hY1
    simp only [mantissa, alt2, pmap, pseq, optP, hd1, hdot, hd2]

theorem optSign_ds (ss ds rest : List Char)
    (hss : ss = [] ∨ ss = ['+'] ∨ ss = ['-'])
    (hds1 : ds ≠ []) (hds2 : ∀ c ∈ ds, isDigit c = true) :
    optSign (ss ++ (ds ++ rest)) = .ok ss.head? (ds ++ rest) := by
  rcases hss with h | h | h <;> subst h
  · simp only [List.nil_append, List.head?]
    cases ds with
    | nil => exact absurd rfl hds1
    | cons d ds2 =>
      have hd := hds2 d (by simp)
      simp only [List.cons_append, optSign, optP, digit_sign_bk (ds2 ++ rest) hd]
  · rfl
  · rfl

theorem expTail_app (ec : Char) (ss ds rest : List Char)
    (hec : ec = 'e' ∨ ec = 'E')
    (hss : ss = [] ∨ ss = ['+'] ∨ ss = ['-'])
    (hds1 : ds ≠ []) (hds2 : ∀ c ∈ ds, isDigit c = true)
    (hrest : boundaryOk rest = true) :
    expTail (ec :: (ss ++ (ds ++ rest))) = .ok () rest := by
  have he : one_ofP ['e', 'E'] (ec :: (ss ++ (ds ++ rest))) =
      .ok ec (ss ++ (ds ++ rest)) := by
    rcases hec with h | h <;> subst h <;> rfl
  have hsign := optSign_ds ss ds rest hss hds1 hds2
  have hd : digit1 (ds ++ rest) = .ok ds rest :=
    digit1_app ds rest hds1 hds2 (boundary_headNotDigit hrest)
  simp only [expTail, pmap, pseq, he, hsign, cut_errP, hd]

theorem optExp_nil (rest : List Char) (hrest : boundaryOk rest = true) :
    optP expTail rest = .ok none rest := by
  have he := boundary_eE_bk hrest
  simp only [optP, expTail, pmap, pseq, he]

theorem float_body_app (neg : Bool) (ip fp ep rest : List Char)
    (hip1 : ip ≠ []) (hip2 : ∀ c ∈ ip, isDigit c = true)
    (hfp : fp = [] ∨ ∃ ds, ds ≠ [] ∧ (∀ c ∈ ds, isDigit c = true) ∧
      fp = '.' :: ds)
    (hep : ep = [] ∨ ∃ ec ss ds, (ec = 'e' ∨ ec = 'E') ∧
      (ss = [] ∨ ss = ['+'] ∨ ss = ['-']) ∧ ds ≠ [] ∧
      (∀ c ∈ ds, isDigit c = true) ∧ ep = ec :: (ss ++ ds))
    (hrest : boundaryOk rest = true) :
    float_body ((if neg then ['-'] else []) ++ (ip ++ (fp ++ (ep ++ rest)))) =
      .ok () rest := by
  have hY1 : headNotB isDigit (ep ++ rest) = true := by
    rcases hep with h | ⟨ec, ss, ds, hec, _, _, _, h⟩
    · subst h
      simp only [List.nil_append]
      exact boundary_headNotDigit hrest
    · subst h
      simp only [List.cons_append, headNotB]
      rcases hec with h | h <;> subst h <;> rfl
  have hY2 : charP '.' (ep ++ rest) = .err false [] := by
    rcases hep with h | ⟨ec, ss, ds, hec, _, _, _, h⟩
    · subst h
      simp only [List.nil_append]
      exact boundary_dot_bk hrest
    · subst h
      simp only [List.cons_append]
      rcases hec with h | h <;> subst h <;>
        exact charP_cons_bk _ (by decide)
  have hman : mantissa (ip ++ (fp ++ (ep ++ rest))) = .ok () (ep ++ rest) :=
    mantissa_app ip fp (ep ++ rest) hip1 hip2 hfp hY1 hY2
  have hexp : ∃ v, optP expTail (ep ++ rest) = .ok v rest := by
    rcases hep with h | ⟨ec, ss, ds, hec, hss, hds1, hds2, h⟩
    · subst h
      exact ⟨none, by simpa using optExp_nil rest hrest⟩
    · subst h
      refine ⟨some (), ?_⟩
      have hta : (ec :: (ss ++ ds)) ++ rest = ec :: (ss ++ (ds ++ rest)) := by
        simp [List.append_assoc]
      rw [hta]
      simp only [optP, expTail_app ec ss ds rest hec hss hds1 hds2 hrest]
  obtain ⟨v, hexp⟩ := hexp
  cases neg with
  | true =>
    have hsgn : optSign ('-' :: (ip ++ (fp ++ (ep ++ rest)))) =
        .ok (some '-') (ip ++ (fp ++ (ep ++ rest))) := rfl
    show float_body ('-' :: (ip ++ (fp ++ (ep ++ rest)))) = .ok () rest
    simp only [float_body, pmap, pseq, hsgn, hman, hexp]
  | false =>
    obtain ⟨d, ip2, hip⟩ := List.exists_cons_of_ne_nil hip1
    have hsgn : optSign (ip ++ (fp ++ (ep ++ rest))) =
        .ok none (ip ++ (fp ++ (ep ++ rest))) := by
      subst hip
      simp only [List.cons_append, optSign, optP,
        digit_sign_bk (ip2 ++ (fp ++ (ep ++ rest))) (hip2 d (by simp))]
    show float_body (ip ++ (fp ++ (ep ++ rest))) = .ok () rest
    simp only [float_body, pmap, pseq, hsgn, hman, hexp]

theorem take_float_app (neg : Bool) (ip fp ep rest : List Char)
    (hip1 : ip ≠ []) (hip2 : ∀ c ∈ ip, isDigit c = true)
    (hfp : fp = [] ∨ ∃ ds, ds ≠ [] ∧ (∀ c ∈ ds, isDigit c = true) ∧
      fp = '.' :: ds)
    (hep : ep = [] ∨ ∃ ec ss ds, (ec = 'e' ∨ ec = 'E') ∧
      (ss = [] ∨ ss = ['+'] ∨ ss = ['-']) ∧ ds ≠ [] ∧
      (∀ c ∈ ds, isDigit c = true) ∧ ep = ec :: (ss ++ ds))
    (hrest : boundaryOk rest = true) :
    take_float ((if neg then ['-'] else []) ++ (ip ++ (fp ++ (ep ++ rest)))) =
      .ok ((if neg then ['-'] else []) ++ (ip ++ (fp ++ ep))) rest :=
  recognize_ok float_body _ _ rest ()
    (float_body_app neg ip fp ep rest hip1 hip2 hfp hep hrest)
    (by simp [List.append_assoc])

theorem splitSign_other {d : Char} (t : List Char) (h1 : ¬(d = '+'))
    (h2 : ¬(d = '-')) : splitSign (d :: t) = (false, d :: t) := by
  unfold splitSign
  split
  · next heq => injection heq with hh _; exact absurd hh h1
  · next heq => injection heq with hh _; exact absurd hh h2
  · rfl

theorem swc_head_ne {p d : Char} (ps t : List Char)
    (h : ¬(asciiLower p = asciiLower d)) :
    startsWithCaseless (p :: ps) (d :: t) = false := by
  simp [startsWithCaseless, h]

theorem takeWhile_all (ds : List Char) (h : ∀ c ∈ ds, isDigit c = true) :
    ds.takeWhile isDigit = ds ∧ ds.dropWhile isDigit = [] := by
  have h1 := takeWhile_all_app ds [] h rfl
  have h2 := dropWhile_all_app ds [] h rfl
  rw [List.append_nil] at h1 h2
  exact ⟨h1, h2⟩

theorem parseExpTail_eval (neg : Bool) (mag : ℚ) (ep : List Char)
    (hep : ep = [] ∨ ∃ ec ss ds, (ec = 'e' ∨ ec = 'E') ∧
      (ss = [] ∨ ss = ['+'] ∨ ss = ['-']) ∧ ds ≠ [] ∧
      (∀ c ∈ ds, isDigit c = true) ∧ ep = ec :: (ss ++ ds)) :
    parseExpTail neg mag ep =
      some (.finite neg (mag * (10 : ℚ) ^ expZ ep)) := by
  rcases hep with h | ⟨ec, ss, ds, hec, hss, hds1, hds2, h⟩
  · subst h
    simp [parseExpTail, expZ]
  · subst h
    obtain ⟨htw, hdw⟩ := takeWhile_all ds hds2
    have hsplit : splitSign (ss ++ ds) =
        (if ss = ['-'] then true else false, ds) := by
      rcases hss with h | h | h <;> subst h
      · simp only [List.nil_append]
        obtain ⟨d2, ds2, hd⟩ := List.exists_cons_of_ne_nil hds1
        subst hd
        have hdd := hds2 d2 (by simp)
        rw [splitSign_other _ (digit_ne hdd (by decide))
          (digit_ne hdd (by decide))]
        simp
      · rfl
      · rfl
    have hcond : (ec = 'e' ∨ ec = 'E') := hec
    have hde : ¬ds.isEmpty = true := by
      simp [List.isEmpty_iff, hds1]
    simp only [parseExpTail, expZ, hsplit, if_pos hcond, htw, hdw]
    simp [hde]

theorem headNotDigit_fpep (fp ep : List Char)
    (hfp : fp = [] ∨ ∃ ds, ds ≠ [] ∧ (∀ c ∈ ds, isDigit c = true) ∧
      fp = '.' :: ds)
    (hep : ep = [] ∨ ∃ ec ss ds, (ec = 'e' ∨ ec = 'E') ∧
      (ss = [] ∨ ss = ['+'] ∨ ss = ['-']) ∧ ds ≠ [] ∧
      (∀ c ∈ ds, isDigit c = true) ∧ ep = ec :: (ss ++ ds)) :
    headNotB isDigit (fp ++ ep) = true := by
  rcases hfp with h | ⟨ds, _, _, h⟩
  · subst h
    simp only [List.nil_append]
    rcases hep with h | ⟨ec, ss, ds, hec, _, _, _, h⟩
    · subst h; rfl
    · subst h
      simp only [List.cons_append, headNotB]
      rcases hec with h | h <;> subst h <;> rfl
  · subst h
    rfl

theorem headNotDigit_ep (ep : List Char)
    (hep : ep = [] ∨ ∃ ec ss ds, (ec = 'e' ∨ ec = 'E') ∧
      (ss = [] ∨ ss = ['+'] ∨ ss = ['-']) ∧ ds ≠ [] ∧
      (∀ c ∈ ds, isDigit c = true) ∧ ep = ec :: (ss ++ ds)) :
    headNotB isDigit ep = true := by
  rcases hep with h | ⟨ec, ss, ds, hec, _, _, _, h⟩
  · subst h; rfl
  · subst h
    simp only [headNotB]
    rcases hec with h | h <;> subst h <;> rfl

theorem parse_f64_eval (neg : Bool) (ip fp ep : List Char)
    (hip1 : ip ≠ []) (hip2 : ∀ c ∈ ip, isDigit c = true)
    (hfp : fp = [] ∨ ∃ ds, ds ≠ [] ∧ (∀ c ∈ ds, isDigit c = true) ∧
      fp = '.' :: ds)
    (hep : ep = [] ∨ ∃ ec ss ds, (ec = 'e' ∨ ec = 'E') ∧
      (ss = [] ∨ ss = ['+'] ∨ ss = ['-']) ∧ ds ≠ [] ∧
      (∀ c ∈ ds, isDigit c = true) ∧ ep = ec :: (ss ++ ds)) :
    parse_f64 ((if neg then ['-'] else []) ++ (ip ++ (fp ++ ep))) =
      some (.finite neg ((digitsVal ip + fracMag fp) * (10 : ℚ) ^ expZ ep)) := by
  obtain ⟨d, ip2, hipc⟩ := List.exists_cons_of_ne_nil hip1
  have hd : isDigit d = true := by
    subst hipc
    exact hip2 d (by simp)
  have hsplit : splitSign ((if neg then ['-'] else []) ++ (ip ++ (fp ++ ep))) =
      (neg, ip ++ (fp ++ ep)) := by
    cases neg with
    | true => rfl
    | false =>
      show splitSign (ip ++ (fp ++ ep)) = (false, ip ++ (fp ++ ep))
      rw [hipc]
      simp only [List.cons_append]
      exact splitSign_other _ (digit_ne hd (by decide)) (digit_ne hd (by decide))
  have hg1 : startsWithCaseless (("infinity").toList) (ip ++ (fp ++ ep)) =
      false := by
    rw [hipc]
    simp only [List.cons_append]
    exact swc_head_ne _ _ (fun he => by
      rw [digit_asciiLower hd] at he
      exact digit_ne hd (by decide) he.symm)
  have hg2 : startsWithCaseless (("inf").toList) (ip ++ (fp ++ ep)) =
      false := by
    rw [hipc]
    simp only [List.cons_append]
    exact swc_head_ne _ _ (fun he => by
      rw [digit_asciiLower hd] at he
      exact digit_ne hd (by decide) he.symm)
  have hg3 : startsWithCaseless (("nan").toList) (ip ++ (fp ++ ep)) =
      false := by
    rw [hipc]
    simp only [List.cons_append]
    exact swc_head_ne _ _ (fun he => by
      rw [digit_asciiLower hd] at he
      exact digit_ne hd (by decide) he.symm)
  have hfe := headNotDigit_fpep fp ep hfp hep
  have htw : (ip ++ (fp ++ ep)).takeWhile isDigit = ip :=
    takeWhile_all_app _ _ hip2 hfe
  have hdw : (ip ++ (fp ++ ep)).dropWhile isDigit = fp ++ ep :=
    dropWhile_all_app _ _ hip2 hfe
  have hipe : ¬ip.isEmpty = true := by simp [List.isEmpty_iff, hip1]
  simp only [parse_f64, hsplit, hg1, hg2, hg3, Bool.false_eq_true, false_and,
    if_false, htw, hdw]
  rcases hfp with hfpn | ⟨ds, hds1, hds2, hfpc⟩
  · subst hfpn
    simp only [List.nil_append]
    rcases hep with hepn | ⟨ec, ss, eds, hec, hss, hed1, hed2, hepc⟩
    · subst hepn
      simp only [hipe, if_false]
      rw [parseExpTail_eval neg _ [] (Or.inl rfl)]
      norm_num [fracMag]
    · subst hepc
      split
      · next t2 heq =>
        exfalso
        rcases hec with h | h <;> subst h <;> exact absurd heq (by simp)
      · simp only [hipe, if_false]
        rw [parseExpTail_eval neg _ _ (Or.inr ⟨ec, ss, eds, hec, hss,
          hed1, hed2, rfl⟩)]
        norm_num [fracMag]
  · subst hfpc
    simp only [List.cons_append]
    have hnd := headNotDigit_ep ep hep
    have htw2 : (ds ++ ep).takeWhile isDigit = ds :=
      takeWhile_all_app _ _ hds2 hnd
    have hdw2 : (ds ++ ep).dropWhile isDigit = ep :=
      dropWhile_all_app _ _ hds2 hnd
    simp only [htw2, hdw2, hipe, false_and, if_false]
    rw [parseExpTail_eval neg _ ep hep]
    norm_num [fracMag]

/-- C1 (amended): the number production accepts every standard JSON
number literal (optional `-`, digits, optional fraction, optional
exponent) followed by input that cannot extend it, consuming exactly the
literal and yielding the number's exact value (`float`, used at line 36).
Amended from the claim: the accepted language is a strict superset of the
JSON grammar — winnow's `float` also accepts a leading `+`, literals
without an integer part or with a trailing dot or leading zeros, and the
case-insensitive special forms `nan`, `inf`, `infinity` (see the
counterexample), and a mantissa followed by a bare exponent marker fails
fatally rather than recoverably. -/
theorem C1_number_production (neg : Bool) (ip fp ep rest : List Char)
    (hip1 : ip ≠ []) (hip2 : ∀ c ∈ ip, isDigit c = true)
    (hfp : fp = [] ∨ ∃ ds, ds ≠ [] ∧ (∀ c ∈ ds, isDigit c = true) ∧
      fp = '.' :: ds)
    (hep : ep = [] ∨ ∃ ec ss ds, (ec = 'e' ∨ ec = 'E') ∧
      (ss = [] ∨ ss = ['+'] ∨ ss = ['-']) ∧ ds ≠ [] ∧
      (∀ c ∈ ds, isDigit c = true) ∧ ep = ec :: (ss ++ ds))
    (hrest : boundaryOk rest = true) :
    float ((if neg then ['-'] else []) ++ (ip ++ (fp ++ (ep ++ rest)))) =
      .ok (.finite neg ((digitsVal ip + fracMag fp) * (10 : ℚ) ^ expZ ep))
        rest := by
  have htf := take_float_app neg ip fp ep rest hip1 hip2 hfp hep hrest
  have htfe : take_float_or_exceptions
      ((if neg then ['-'] else []) ++ (ip ++ (fp ++ (ep ++ rest)))) =
      .ok ((if neg then ['-'] else []) ++ (ip ++ (fp ++ ep))) rest := by
    simp only [take_float_or_exceptions, alt2, htf]
  have hpf := parse_f64_eval neg ip fp ep hip1 hip2 hfp hep
  simp only [float, htfe, hpf]

/-- Counterexample for C1: no prefix of the input `inf` lies in the
standard JSON number lexical form, yet the number production accepts it
(as positive infinity) instead of failing recoverably, and the value
dispatcher yields it as a `Number`. -/
theorem C1_counterexample :
    float (("inf").toList) = .ok (.inf false) [] ∧
    json_valueF 1 (("inf").toList) = .ok (.number (.inf false)) [] ∧
    (isJsonNumberB [] || isJsonNumberB ['i'] || isJsonNumberB ['i', 'n'] ||
      isJsonNumberB ['i', 'n', 'f']) = false :=
  ⟨rfl, rfl, by decide⟩

/-- Witness for C1 at the three number examples of the claim:
`123e4` gives `1230000.0`, `1.0` gives `1.0`, `-0` gives `-0.0` (the
negatively-signed zero). -/
theorem C1_witness :
    float (("123e4").toList) = .ok (.finite false 1230000) [] ∧
    float (("1.0").toList) = .ok (.finite false 1) [] ∧
    float (("-0").toList) = .ok (.finite true 0) [] := by
  refine ⟨?_, ?_, ?_⟩
  · have h := C1_number_production false ['1', '2', '3'] [] ['e', '4'] []
      (by decide) (by decide) (Or.inl rfl)
      (Or.inr ⟨'e', [], ['4'], Or.inl rfl, Or.inl rfl, by decide, by decide,
        rfl⟩) rfl
    have hv : ((digitsVal ['1', '2', '3'] : ℚ) + fracMag []) *
        (10 : ℚ) ^ expZ ['e', '4'] = 1230000 := by
      rw [show expZ ['e', '4'] = (4 : ℤ) from rfl,
        show fracMag [] = 0 from rfl,
        show digitsVal ['1', '2', '3'] = 123 from rfl]
      norm_num
    rw [hv] at h
    exact h
  · have h := C1_number_production false ['1'] ['.', '0'] [] []
      (by decide) (by decide) (Or.inr ⟨['0'], by decide, by decide, rfl⟩)
      (Or.inl rfl) rfl
    have hv : ((digitsVal ['1'] : ℚ) + fracMag ['.', '0']) *
        (10 : ℚ) ^ expZ [] = 1 := by
      rw [show expZ [] = (0 : ℤ) from rfl,
        show fracMag ['.', '0'] = (digitsVal ['0'] : ℚ) / (10 : ℚ) ^ (1 : ℕ)
          from rfl,
        show digitsVal ['1'] = 1 from rfl, show digitsVal ['0'] = 0 from rfl]
      norm_num
    rw [hv] at h
    exact h
  · have h := C1_number_production true ['0'] [] [] []
      (by decide) (by decide) (Or.inl rfl) (Or.inl rfl) rfl
    have hv : ((digitsVal ['0'] : ℚ) + fracMag []) * (10 : ℚ) ^ expZ [] =
        0 := by
      rw [show expZ [] = (0 : ℤ) from rfl, show fracMag [] = 0 from rfl,
        show digitsVal ['0'] = 0 from rfl]
      norm_num
    rw [hv] at h
    exact h

end WJson
